import Mathlib

/-!
Verification of `regression_lib.py` (logistic-regression teaching library).

The exact-arithmetic parts of the library (losses, gradient descent) are
embedded over `ℚ`, with vectors as `List ℚ` and matrices as lists of rows,
so that every definition is executable.  The transcendental parts
(`sigmoid`, `feature_normalize`, which use `exp` and `sqrt`) are embedded
over `ℝ`.
-/

namespace RegressionLib

/-- Dot product of two equal-length vectors (`np.dot` on vectors; the
library only applies it at matching lengths). -/
def dot (v w : List ℚ) : ℚ :=
  (List.zipWith (· * ·) v w).sum

/-- Matrix-vector product `X.dot(theta)` for a matrix stored as a list of rows. -/
def matVec (X : List (List ℚ)) (theta : List ℚ) : List ℚ :=
  X.map (fun row => dot row theta)

/-- Column `j` of a matrix stored as a list of rows (`X[:, j]`). -/
def col (X : List (List ℚ)) (j : ℕ) : List ℚ :=
  X.map (fun row => row.getD j 0)

/-- Function `square_loss(X, y, theta, reg_beta)`: squared margin loss and gradient.
Mirrors the source: `margin = y * X.dot(theta)`, `diff = margin - 1`,
`loss = dot(diff, diff)/k + dot(theta, theta)*reg_beta/2`, and
`dtheta[j] = 2*dot(diff*y, X[:,j])/k + reg_beta*theta[j]` for `j < n`
(`dtheta` starts as `zeros_like(theta)`). -/
def square_loss (X : List (List ℚ)) (y theta : List ℚ) (reg_beta : ℚ) : ℚ × List ℚ :=
  let k : ℚ := (X.length : ℚ)
  let n : ℕ := (X.headD []).length
  let margin := List.zipWith (· * ·) y (matVec X theta)
  let diff := margin.map (fun m => m - 1)
  let loss := dot diff diff / k + dot theta theta * reg_beta / 2
  let dtheta := (List.range theta.length).map (fun j =>
    if j < n then 2 * dot (List.zipWith (· * ·) diff y) (col X j) / k + reg_beta * theta.getD j 0
    else 0)
  (loss, dtheta)

/-- Function `hinge_loss(X, y, theta, reg_beta)`: hinge loss and (sub)gradient.
Mirrors the source: `loss = sum(maximum(0, 1 - margin))/k + dot(theta,theta)*reg_beta/2`,
and for `j < n`,
`dtheta[j] = sum(where(margin < 1, -(y*X)[:,j], 0))/k + reg_beta*theta[j]`. -/
def hinge_loss (X : List (List ℚ)) (y theta : List ℚ) (reg_beta : ℚ) : ℚ × List ℚ :=
  let k : ℚ := (X.length : ℚ)
  let n : ℕ := (X.headD []).length
  let margin := List.zipWith (· * ·) y (matVec X theta)
  let loss := (margin.map (fun m => max 0 (1 - m))).sum / k + dot theta theta * reg_beta / 2
  let dtheta := (List.range theta.length).map (fun j =>
    if j < n then
      (List.zipWith (fun m v => if m < 1 then -v else 0) margin
        (List.zipWith (· * ·) y (col X j))).sum / k + reg_beta * theta.getD j 0
    else 0)
  (loss, dtheta)

/-- The signature of loss functions as `gradient_descent` calls them:
`lossfunc(X, y, theta)` (with `reg_beta` left at its default). -/
abbrev LossFunc := List (List ℚ) → List ℚ → List ℚ → ℚ × List ℚ

/-- Partial application `square_loss` with `reg_beta` at its default `0.0`, the shape in which
it is handed to `gradient_descent`. -/
def square_loss_default : LossFunc := fun X y theta => square_loss X y theta 0

/-- Partial application `hinge_loss` with `reg_beta` at its default `0.0`, the shape in which
it is handed to `gradient_descent`. -/
def hinge_loss_default : LossFunc := fun X y theta => hinge_loss X y theta 0

/-- The `for step in range(nsteps)` loop of `gradient_descent`: carries the
current `theta` and the gradient `dtheta` computed for it, updates
`theta -= learning_rate * dtheta`, re-evaluates the loss function at the
updated `theta`, and yields `(theta, loss)`. -/
def gdLoop (lossfunc : LossFunc) (X : List (List ℚ)) (y : List ℚ) (learning_rate : ℚ) :
    List ℚ → List ℚ → ℕ → List (List ℚ × ℚ)
  | _, _, 0 => []
  | theta, dtheta, m + 1 =>
      let theta' := List.zipWith (fun a b => a - learning_rate * b) theta dtheta
      let p := lossfunc X y theta'
      (theta', p.1) :: gdLoop lossfunc X y learning_rate theta' p.2 m

/-- Function `gradient_descent(X, y, lossfunc, nsteps, learning_rate)`: the generator's
yielded sequence as a list of `(theta, loss)` value pairs.  `theta` starts as
the zero vector of length `n` (the column count of `X`), the loss function is
evaluated once before the first yield, then the loop runs `nsteps` times. -/
def gradient_descent (X : List (List ℚ)) (y : List ℚ) (lossfunc : LossFunc)
    (nsteps : ℕ) (learning_rate : ℚ) : List (List ℚ × ℚ) :=
  let n := (X.headD []).length
  let theta := List.replicate n (0 : ℚ)
  let p := lossfunc X y theta
  (theta, p.1) :: gdLoop lossfunc X y learning_rate theta p.2 nsteps

/-- The `i`-th parameter iterate of `gradient_descent`: `theta` after `i`
update steps (`thetaIter 0` is the initial zero vector). -/
def thetaIter (X : List (List ℚ)) (y : List ℚ) (lossfunc : LossFunc)
    (learning_rate : ℚ) : ℕ → List ℚ
  | 0 => List.replicate ((X.headD []).length) (0 : ℚ)
  | i + 1 =>
      let theta := thetaIter X y lossfunc learning_rate i
      List.zipWith (fun a b => a - learning_rate * b) theta ((lossfunc X y theta).2)

/-- The generator's in-place numpy semantics, made explicit by state
passing: the single `theta` array is a mutable cell whose contents are
threaded through the loop (`theta -= learning_rate * dtheta` overwrites
it), and every `yield theta, loss` hands out a *reference* to that one
cell (modelled as `Unit`, since there is exactly one array per run)
together with the loss value.  Returns the final cell contents and the
yielded `(reference, loss)` pairs of the loop. -/
def gdLoopInPlace (lossfunc : LossFunc) (X : List (List ℚ)) (y : List ℚ) (learning_rate : ℚ) :
    List ℚ → List ℚ → ℕ → List ℚ × List (Unit × ℚ)
  | store, _, 0 => (store, [])
  | store, dtheta, m + 1 =>
      let store' := List.zipWith (fun a b => a - learning_rate * b) store dtheta
      let p := lossfunc X y store'
      let rest := gdLoopInPlace lossfunc X y learning_rate store' p.2 m
      (rest.1, ((), p.1) :: rest.2)

/-- Variant of `gradient_descent` with the reference semantics of its yields kept
visible: the result is the final contents of the single `theta` array
together with all yielded `(reference, loss)` pairs. -/
def gradient_descent_inplace (X : List (List ℚ)) (y : List ℚ) (lossfunc : LossFunc)
    (nsteps : ℕ) (learning_rate : ℚ) : List ℚ × List (Unit × ℚ) :=
  let n := (X.headD []).length
  let theta := List.replicate n (0 : ℚ)
  let p := lossfunc X y theta
  let rest := gdLoopInPlace lossfunc X y learning_rate theta p.2 nsteps
  (rest.1, ((), p.1) :: rest.2)

/-- Dereference a yielded `theta` against the array contents `store` as
they stand at observation time (after the run, `store` is the final
contents of the one mutable array). -/
def readRef (store : List ℚ) (_ : Unit) : List ℚ := store

/-- The square loss exactly as the specification phrases it:
`loss = mean((y * (X·theta) - 1)^2) + (reg_beta/2)·||theta||^2` and
`dtheta[j] = (2/k)·Σ_i (margin[i]-1)·y[i]·X[i,j] + reg_beta·theta[j]`
for a `k×n` matrix `X`. -/
def squareLossSpec (k n : ℕ) (X : List (List ℚ)) (y theta : List ℚ) (reg_beta : ℚ) : ℚ × List ℚ :=
  let margin : ℕ → ℚ := fun i =>
    y.getD i 0 * ∑ j in Finset.range n, (X.getD i []).getD j 0 * theta.getD j 0
  ((∑ i in Finset.range k, (margin i - 1) ^ 2) / k
      + reg_beta / 2 * ∑ j in Finset.range n, theta.getD j 0 ^ 2,
   (List.range n).map (fun j =>
     2 / k * ∑ i in Finset.range k, (margin i - 1) * y.getD i 0 * (X.getD i []).getD j 0
       + reg_beta * theta.getD j 0))

/-- The hinge loss exactly as the specification phrases it:
`loss = mean(max(0, 1 - margin)) + (reg_beta/2)·||theta||^2` and
`dtheta[j] = (1/k)·Σ_i c_i + reg_beta·theta[j]` where `c_i = -y[i]·X[i,j]`
when `margin[i] < 1` and `c_i = 0` when `margin[i] >= 1`. -/
def hingeLossSpec (k n : ℕ) (X : List (List ℚ)) (y theta : List ℚ) (reg_beta : ℚ) : ℚ × List ℚ :=
  let margin : ℕ → ℚ := fun i =>
    y.getD i 0 * ∑ j in Finset.range n, (X.getD i []).getD j 0 * theta.getD j 0
  ((∑ i in Finset.range k, max 0 (1 - margin i)) / k
      + reg_beta / 2 * ∑ j in Finset.range n, theta.getD j 0 ^ 2,
   (List.range n).map (fun j =>
     1 / k * (∑ i in Finset.range k,
         if margin i < 1 then -(y.getD i 0 * (X.getD i []).getD j 0) else 0)
       + reg_beta * theta.getD j 0))

/-- Function `sigmoid(z) = 1 / (1 + exp(-z))`, over the reals. -/
noncomputable def sigmoid (z : ℝ) : ℝ := 1 / (1 + Real.exp (-z))

/-- Function `feature_normalize(X)`: per-column mean `mu = X.mean(axis=0)`,
per-column population standard deviation
`sigma = X.std(axis=0) = sqrt(mean((X - mu)^2))`, and the normalized
matrix `X_norm = (X - mu) / sigma` (broadcast across rows). -/
noncomputable def feature_normalize (k n : ℕ) (X : Fin k → Fin n → ℝ) :
    (Fin k → Fin n → ℝ) × (Fin n → ℝ) × (Fin n → ℝ) :=
  let mu : Fin n → ℝ := fun j => (∑ i, X i j) / k
  let sigma : Fin n → ℝ := fun j => Real.sqrt ((∑ i, (X i j - mu j) ^ 2) / k)
  (fun i j => (X i j - mu j) / sigma j, mu, sigma)

/-! ### List infrastructure -/

theorem getD_map_gen {α β : Type} (g : α → β) (v : List α) (i : ℕ) (h : i < v.length)
    (d : α) (d' : β) : (v.map g).getD i d' = g (v.getD i d) := by
  rw [List.getD_eq_getElem _ _ (by simpa using h), List.getElem_map,
    List.getD_eq_getElem _ _ h]

theorem getD_zipWith_gen {α β γ : Type} (f : α → β → γ) (v : List α) (w : List β) (i : ℕ)
    (hv : i < v.length) (hw : i < w.length) (da : α) (db : β) (dc : γ) :
    (List.zipWith f v w).getD i dc = f (v.getD i da) (w.getD i db) := by
  rw [List.getD_eq_getElem _ _ (by rw [List.length_zipWith]; omega), List.getElem_zipWith,
    List.getD_eq_getElem _ _ hv, List.getD_eq_getElem _ _ hw]

theorem zipWith_sum_eq (f : ℚ → ℚ → ℚ) :
    ∀ (v w : List ℚ) (k : ℕ), v.length = k → w.length = k →
      (List.zipWith f v w).sum = ∑ i in Finset.range k, f (v.getD i 0) (w.getD i 0) := by
  intro v
  induction v with
  | nil =>
      intro w k hv hw
      simp at hv
      subst hv
      simp
  | cons a v ih =>
      intro w k hv hw
      simp at hv
      subst hv
      match w with
      | [] => simp at hw
      | b :: w =>
          simp at hw
          rw [List.zipWith_cons_cons, List.sum_cons, Finset.sum_range_succ']
          simp only [List.getD_cons_succ, List.getD_cons_zero]
          rw [ih w v.length rfl hw, add_comm]

theorem map_sum_eq (g : ℚ → ℚ) :
    ∀ (v : List ℚ) (k : ℕ), v.length = k →
      (v.map g).sum = ∑ i in Finset.range k, g (v.getD i 0) := by
  intro v
  induction v with
  | nil =>
      intro k hv
      simp at hv
      subst hv
      simp
  | cons a v ih =>
      intro k hv
      simp at hv
      subst hv
      rw [List.map_cons, List.sum_cons, Finset.sum_range_succ']
      simp only [List.getD_cons_succ, List.getD_cons_zero]
      rw [ih v.length rfl, add_comm]

theorem dot_eq_sum (v w : List ℚ) (k : ℕ) (hv : v.length = k) (hw : w.length = k) :
    dot v w = ∑ i in Finset.range k, v.getD i 0 * w.getD i 0 :=
  zipWith_sum_eq (· * ·) v w k hv hw

theorem getD_map_range {α : Type} (g : ℕ → α) (m i : ℕ) (h : i < m) (d : α) :
    ((List.range m).map g).getD i d = g i := by
  rw [List.getD_eq_getElem _ _ (by simpa using h), List.getElem_map, List.getElem_range]

theorem margin_len (k : ℕ) (X : List (List ℚ)) (y theta : List ℚ)
    (hX : X.length = k) (hy : y.length = k) :
    (List.zipWith (· * ·) y (matVec X theta)).length = k := by
  simp [matVec, hX, hy]

theorem row_len (n : ℕ) (X : List (List ℚ)) (hrect : ∀ row ∈ X, row.length = n)
    (i : ℕ) (hi : i < X.length) : (X.getD i []).length = n := by
  rw [List.getD_eq_getElem X [] hi]
  exact hrect _ (List.getElem_mem hi)

theorem margin_getD (k n : ℕ) (X : List (List ℚ)) (y theta : List ℚ)
    (hX : X.length = k) (hrect : ∀ row ∈ X, row.length = n) (hy : y.length = k)
    (htheta : theta.length = n) (i : ℕ) (hi : i < k) :
    (List.zipWith (· * ·) y (matVec X theta)).getD i 0
      = y.getD i 0 * ∑ j in Finset.range n, (X.getD i []).getD j 0 * theta.getD j 0 := by
  rw [getD_zipWith_gen (· * ·) y (matVec X theta) i (by omega) (by simp [matVec]; omega) 0 0 0]
  rw [show (matVec X theta).getD i 0 = dot (X.getD i []) theta from
    getD_map_gen (fun row => dot row theta) X i (by omega) [] 0]
  rw [dot_eq_sum (X.getD i []) theta n (row_len n X hrect i (by omega)) htheta]

theorem col_len (k : ℕ) (X : List (List ℚ)) (hX : X.length = k) (j : ℕ) :
    (col X j).length = k := by
  simp [col, hX]

theorem col_getD (k : ℕ) (X : List (List ℚ)) (hX : X.length = k) (j i : ℕ) (hi : i < k) :
    (col X j).getD i 0 = (X.getD i []).getD j 0 := by
  show (X.map (fun row => row.getD j 0)).getD i 0 = _
  exact getD_map_gen (fun row => row.getD j 0) X i (by omega) [] 0

theorem dot_self_nonneg (theta : List ℚ) : 0 ≤ dot theta theta := by
  induction theta with
  | nil => simp [dot]
  | cons a t ih =>
      show 0 ≤ a * a + dot t t
      exact add_nonneg (mul_self_nonneg a) ih

theorem dot_self_pos (theta : List ℚ) (h : ∃ v ∈ theta, v ≠ 0) : 0 < dot theta theta := by
  induction theta with
  | nil =>
      obtain ⟨v, hv, _⟩ := h
      exact absurd hv (List.not_mem_nil v)
  | cons a t ih =>
      show 0 < a * a + dot t t
      obtain ⟨v, hv, hvne⟩ := h
      rcases List.mem_cons.mp hv with h1 | h2
      · subst h1
        exact add_pos_of_pos_of_nonneg (mul_self_pos.mpr hvne) (dot_self_nonneg t)
      · exact add_pos_of_nonneg_of_pos (mul_self_nonneg a) (ih ⟨v, h2, hvne⟩)

theorem dot_replicate_zero (v : List ℚ) : ∀ m : ℕ, dot v (List.replicate m 0) = 0 := by
  induction v with
  | nil => intro m; simp [dot]
  | cons a t ih =>
      intro m
      cases m with
      | zero => simp [dot]
      | succ m2 =>
          rw [List.replicate_succ]
          show a * 0 + (List.zipWith (· * ·) t (List.replicate m2 0)).sum = 0
          rw [mul_zero, zero_add]
          exact ih m2

theorem matVec_zero (X : List (List ℚ)) (m : ℕ) :
    matVec X (List.replicate m 0) = List.replicate X.length 0 := by
  refine List.eq_replicate_iff.mpr ⟨by simp [matVec], ?_⟩
  intro b hb
  obtain ⟨row, _, rfl⟩ := List.mem_map.mp hb
  exact dot_replicate_zero row m

theorem zip_mul_replicate_zero (y : List ℚ) :
    ∀ k : ℕ, y.length = k → List.zipWith (· * ·) y (List.replicate k 0) = List.replicate k 0 := by
  induction y with
  | nil =>
      intro k h
      simp at h
      subst h
      simp
  | cons a t ih =>
      intro k h
      simp at h
      subst h
      rw [List.replicate_succ, List.zipWith_cons_cons, mul_zero, ih t.length rfl]

/-! ### The yielded sequence of `gradient_descent` as a function of the step index -/

theorem gdLoop_eq_map (f : LossFunc) (X : List (List ℚ)) (y : List ℚ) (lr : ℚ) :
    ∀ (m i : ℕ),
      gdLoop f X y lr (thetaIter X y f lr i) ((f X y (thetaIter X y f lr i)).2) m
        = (List.range m).map (fun s =>
            (thetaIter X y f lr (i + s + 1), (f X y (thetaIter X y f lr (i + s + 1))).1)) := by
  intro m
  induction m with
  | zero => intro i; rfl
  | succ m ih =>
      intro i
      rw [List.range_succ_eq_map, List.map_cons, List.map_map]
      show (thetaIter X y f lr (i + 1), (f X y (thetaIter X y f lr (i + 1))).1)
            :: gdLoop f X y lr (thetaIter X y f lr (i + 1))
                ((f X y (thetaIter X y f lr (i + 1))).2) m = _
      rw [ih (i + 1)]
      congr 1
      apply List.map_congr_left
      intro s _
      have hidx : i + 1 + s + 1 = i + (s + 1) + 1 := by omega
      simp only [Function.comp_apply, hidx]

theorem gd_eq_map (X : List (List ℚ)) (y : List ℚ) (f : LossFunc) (N : ℕ) (lr : ℚ) :
    gradient_descent X y f N lr
      = (List.range (N + 1)).map (fun i =>
          (thetaIter X y f lr i, (f X y (thetaIter X y f lr i)).1)) := by
  rw [List.range_succ_eq_map, List.map_cons, List.map_map]
  show (thetaIter X y f lr 0, (f X y (thetaIter X y f lr 0)).1)
        :: gdLoop f X y lr (thetaIter X y f lr 0) ((f X y (thetaIter X y f lr 0)).2) N = _
  rw [gdLoop_eq_map f X y lr N 0]
  congr 1
  apply List.map_congr_left
  intro s _
  have hidx : 0 + s + 1 = s + 1 := by omega
  simp only [Function.comp_apply, hidx]

theorem gd_getD (X : List (List ℚ)) (y : List ℚ) (f : LossFunc) (N : ℕ) (lr : ℚ)
    (i : ℕ) (hi : i < N + 1) :
    (gradient_descent X y f N lr).getD i ([], 0)
      = (thetaIter X y f lr i, (f X y (thetaIter X y f lr i)).1) := by
  rw [gd_eq_map, getD_map_range _ _ _ hi]

theorem gdLoopInPlace_final (f : LossFunc) (X : List (List ℚ)) (y : List ℚ) (lr : ℚ) :
    ∀ (m i : ℕ),
      (gdLoopInPlace f X y lr (thetaIter X y f lr i) ((f X y (thetaIter X y f lr i)).2) m).1
        = thetaIter X y f lr (i + m) := by
  intro m
  induction m with
  | zero => intro i; rfl
  | succ m ih =>
      intro i
      show (gdLoopInPlace f X y lr (thetaIter X y f lr (i + 1))
              ((f X y (thetaIter X y f lr (i + 1))).2) m).1 = _
      rw [ih (i + 1)]
      congr 1
      omega

theorem gd_inplace_final (X : List (List ℚ)) (y : List ℚ) (f : LossFunc) (N : ℕ) (lr : ℚ) :
    (gradient_descent_inplace X y f N lr).1 = thetaIter X y f lr N := by
  show (gdLoopInPlace f X y lr (thetaIter X y f lr 0)
          ((f X y (thetaIter X y f lr 0)).2) N).1 = _
  rw [gdLoopInPlace_final f X y lr N 0]
  congr 1
  omega

theorem gdLoopInPlace_len (f : LossFunc) (X : List (List ℚ)) (y : List ℚ) (lr : ℚ) :
    ∀ (m : ℕ) (store dtheta : List ℚ),
      (gdLoopInPlace f X y lr store dtheta m).2.length = m := by
  intro m
  induction m with
  | zero => intro store dtheta; rfl
  | succ m ih =>
      intro store dtheta
      show (gdLoopInPlace f X y lr _ _ m).2.length + 1 = m + 1
      rw [ih]

/- `Rat.add`, `Rat.mul`, `Rat.sub` and `Rat.inv` are `@[irreducible]` in the
library; concrete runs of the embedded program are evaluated by `decide`,
which needs them to unfold. -/
attribute [local semireducible] Rat.add Rat.mul Rat.sub Rat.inv

/-- The loss column of the 50-step hinge-loss run on the toy data set,
evaluated to an explicit list of rationals. -/
theorem losses6_eq :
    (gradient_descent [[1, 1], [1, 2], [1, 3], [1, 4]] [1, 1, -1, -1]
        hinge_loss_default 50 (1 / 10)).map Prod.snd =
      [1, 9/10, 4/5, 3/4, 119/160, 59/80, 117/160, 29/40, 23/32, 57/80, 113/160, 7/10,
       7/10, 111/160, 11/16, 109/160, 27/40, 107/160, 53/80, 21/32, 13/20, 103/160, 51/80,
       101/160, 5/8, 99/160, 49/80, 97/160, 3/5, 3/5, 19/32, 47/80, 93/160, 23/40, 91/160,
       9/16, 89/160, 11/20, 87/160, 43/80, 17/32, 21/40, 83/160, 41/80, 81/160, 1/2, 1/2,
       79/160, 39/80, 77/160, 19/40] := by
  decide

/-! ### Claims -/

/-- C1: for every `X` with `n` columns, every `y`, every loss function and
every `nsteps = N ≥ 0`, `gradient_descent` produces a sequence of exactly
`N + 1` `(theta, loss)` pairs, and the first pair is the zero vector of
length `n` together with the loss of `lossfunc` at that zero vector (the
pre-update state). -/
theorem claim_C1 (X : List (List ℚ)) (y : List ℚ) (f : LossFunc) (N : ℕ) (lr : ℚ)
    (n : ℕ) (hrect : ∀ row ∈ X, row.length = n) (hne : X ≠ []) :
    (gradient_descent X y f N lr).length = N + 1 ∧
    (gradient_descent X y f N lr).headD ([], 0)
      = (List.replicate n 0, (f X y (List.replicate n 0)).1) := by
  have hhead : (X.headD []).length = n := by
    match X, hne with
    | r :: t, _ => exact hrect r (by simp)
  constructor
  · rw [gd_eq_map, List.length_map, List.length_range]
  · have hcons : gradient_descent X y f N lr
        = (List.replicate ((X.headD []).length) (0 : ℚ),
            (f X y (List.replicate ((X.headD []).length) 0)).1)
          :: gdLoop f X y lr (List.replicate ((X.headD []).length) 0)
              ((f X y (List.replicate ((X.headD []).length) 0)).2) N := rfl
    rw [hcons, List.headD_cons, hhead]

theorem claim_C1_witness :
    ((∀ row ∈ [[(2 : ℚ)]], row.length = 1) ∧ [[(2 : ℚ)]] ≠ []) ∧
    ((gradient_descent [[(2 : ℚ)]] [1] square_loss_default 3 (1 / 10)).length = 3 + 1 ∧
     (gradient_descent [[(2 : ℚ)]] [1] square_loss_default 3 (1 / 10)).headD ([], 0)
       = (List.replicate 1 0, (square_loss_default [[(2 : ℚ)]] [1] (List.replicate 1 0)).1)) :=
  ⟨⟨by decide, by decide⟩,
   claim_C1 [[(2 : ℚ)]] [1] square_loss_default 3 (1 / 10) 1 (by decide) (by decide)⟩

/-- C2: for every step `i` in `1..nsteps`, the `i`-th produced `theta`
equals the previous `theta` minus `learning_rate` times the gradient that
`lossfunc` returned at the previous `theta`, and the loss produced
alongside it is `lossfunc` re-evaluated at this updated `theta` (not at
the previous one). -/
theorem claim_C2 (X : List (List ℚ)) (y : List ℚ) (f : LossFunc) (N : ℕ) (lr : ℚ)
    (i : ℕ) (h1 : 1 ≤ i) (h2 : i ≤ N) :
    ((gradient_descent X y f N lr).getD i ([], 0)).1
      = List.zipWith (fun a b => a - lr * b)
          ((gradient_descent X y f N lr).getD (i - 1) ([], 0)).1
          ((f X y ((gradient_descent X y f N lr).getD (i - 1) ([], 0)).1).2) ∧
    ((gradient_descent X y f N lr).getD i ([], 0)).2
      = (f X y ((gradient_descent X y f N lr).getD i ([], 0)).1).1 := by
  have hi : i < N + 1 := by omega
  have hi' : i - 1 < N + 1 := by omega
  rw [gd_getD X y f N lr i hi, gd_getD X y f N lr (i - 1) hi']
  refine ⟨?_, rfl⟩
  have hsucc : i - 1 + 1 = i := by omega
  conv_lhs => rw [← hsucc]
  rfl

theorem claim_C2_witness :
    ((1 : ℕ) ≤ 1 ∧ (1 : ℕ) ≤ 2) ∧
    (((gradient_descent [[(2 : ℚ)]] [1] square_loss_default 2 (1 / 10)).getD 1 ([], 0)).1
       = List.zipWith (fun a b => a - (1 / 10) * b)
           ((gradient_descent [[(2 : ℚ)]] [1] square_loss_default 2 (1 / 10)).getD (1 - 1) ([], 0)).1
           ((square_loss_default [[(2 : ℚ)]] [1]
               ((gradient_descent [[(2 : ℚ)]] [1] square_loss_default 2 (1 / 10)).getD (1 - 1) ([], 0)).1).2) ∧
     ((gradient_descent [[(2 : ℚ)]] [1] square_loss_default 2 (1 / 10)).getD 1 ([], 0)).2
       = (square_loss_default [[(2 : ℚ)]] [1]
           ((gradient_descent [[(2 : ℚ)]] [1] square_loss_default 2 (1 / 10)).getD 1 ([], 0)).1).1) :=
  ⟨⟨by decide, by decide⟩,
   claim_C2 [[(2 : ℚ)]] [1] square_loss_default 2 (1 / 10) 1 (by decide) (by decide)⟩

/-- C3: for every `k×n` matrix `X` (`k ≥ 1`), every `y` of length `k`,
every `theta` of length `n` and every `reg_beta`, `square_loss` returns
exactly the loss `mean((y*(X·theta) - 1)^2) + (reg_beta/2)·||theta||^2`
and the gradient with `j`-th entry
`(2/k)·Σ_i (margin[i]-1)·y[i]·X[i,j] + reg_beta·theta[j]`, as the
specification states (the spec's side is transcribed in
`squareLossSpec`).  The claim also lets `y` range over ±1 vectors only;
the equality needs no such restriction. -/
theorem claim_C3 (k n : ℕ) (X : List (List ℚ)) (y theta : List ℚ) (reg_beta : ℚ)
    (hk : 1 ≤ k) (hX : X.length = k) (hrect : ∀ row ∈ X, row.length = n)
    (hy : y.length = k) (htheta : theta.length = n) :
    square_loss X y theta reg_beta = squareLossSpec k n X y theta reg_beta := by
  have hne : X ≠ [] := by
    intro h
    rw [h] at hX
    simp at hX
    omega
  have hhead : (X.headD []).length = n := by
    match X, hne with
    | r :: t, _ => exact hrect r (by simp)
  have hmlen : (List.zipWith (· * ·) y (matVec X theta)).length = k :=
    margin_len k X y theta hX hy
  simp only [square_loss, squareLossSpec, Prod.mk.injEq]
  rw [hX, hhead, htheta]
  constructor
  · have hdlen : ((List.zipWith (· * ·) y (matVec X theta)).map (fun m => m - 1)).length = k := by
      rw [List.length_map, hmlen]
    have hD : dot ((List.zipWith (· * ·) y (matVec X theta)).map (fun m => m - 1))
          ((List.zipWith (· * ·) y (matVec X theta)).map (fun m => m - 1))
        = ∑ i in Finset.range k,
            (y.getD i 0 * (∑ j in Finset.range n, (X.getD i []).getD j 0 * theta.getD j 0) - 1) ^ 2 := by
      rw [dot_eq_sum _ _ k hdlen hdlen]
      refine Finset.sum_congr rfl (fun i hi => ?_)
      have hik : i < k := List.mem_range.mp hi
      rw [getD_map_gen (fun m => m - 1) _ i (by omega) 0 0,
        margin_getD k n X y theta hX hrect hy htheta i hik]
      exact (pow_two _).symm
    have hT : dot theta theta = ∑ j in Finset.range n, theta.getD j 0 ^ 2 := by
      rw [dot_eq_sum theta theta n htheta htheta]
      exact Finset.sum_congr rfl (fun j _ => (pow_two _).symm)
    rw [hD, hT]
    ring
  · apply List.map_congr_left
    intro j hj
    have hjn : j < n := List.mem_range.mp hj
    rw [if_pos hjn]
    have hzlen : (List.zipWith (· * ·)
          ((List.zipWith (· * ·) y (matVec X theta)).map (fun m => m - 1)) y).length = k := by
      rw [List.length_zipWith, List.length_map, hmlen, hy]
      omega
    have hS : dot (List.zipWith (· * ·)
          ((List.zipWith (· * ·) y (matVec X theta)).map (fun m => m - 1)) y) (col X j)
        = ∑ i in Finset.range k,
            (y.getD i 0 * (∑ j2 in Finset.range n, (X.getD i []).getD j2 0 * theta.getD j2 0) - 1)
              * y.getD i 0 * (X.getD i []).getD j 0 := by
      rw [dot_eq_sum _ _ k hzlen (col_len k X hX j)]
      refine Finset.sum_congr rfl (fun i hi => ?_)
      have hik : i < k := List.mem_range.mp hi
      rw [getD_zipWith_gen (· * ·) _ y i (by rw [List.length_map, hmlen]; omega) (by omega) 0 0 0,
        getD_map_gen (fun m => m - 1) _ i (by omega) 0 0,
        margin_getD k n X y theta hX hrect hy htheta i hik,
        col_getD k X hX j i hik]
    rw [hS]
    ring

theorem claim_C3_witness :
    ((1 : ℕ) ≤ 1 ∧ [[(2 : ℚ)]].length = 1 ∧ (∀ row ∈ [[(2 : ℚ)]], row.length = 1) ∧
      [(1 : ℚ)].length = 1 ∧ [(3 : ℚ)].length = 1) ∧
    square_loss [[(2 : ℚ)]] [1] [3] 5 = squareLossSpec 1 1 [[(2 : ℚ)]] [1] [3] 5 :=
  ⟨⟨by decide, by decide, by decide, by decide, by decide⟩,
   claim_C3 1 1 [[(2 : ℚ)]] [1] [3] 5 (by decide) (by decide) (by decide) (by decide) (by decide)⟩

/-- C4: for every `k×n` matrix `X` (`k ≥ 1`), every `y` of length `k`,
every `theta` of length `n` and every `reg_beta`, `hinge_loss` returns
exactly the loss `mean(max(0, 1 - margin)) + (reg_beta/2)·||theta||^2`
and the subgradient with `j`-th entry `(1/k)·Σ_i c_i + reg_beta·theta[j]`
where `c_i = -y[i]·X[i,j]` exactly when `margin[i] < 1` and `c_i = 0`
when `margin[i] ≥ 1` (so a sample with `margin[i] = 1` contributes zero),
as the specification states (the spec's side is transcribed in
`hingeLossSpec`).  The claim also lets `y` range over ±1 vectors only;
the equality needs no such restriction. -/
theorem claim_C4 (k n : ℕ) (X : List (List ℚ)) (y theta : List ℚ) (reg_beta : ℚ)
    (hk : 1 ≤ k) (hX : X.length = k) (hrect : ∀ row ∈ X, row.length = n)
    (hy : y.length = k) (htheta : theta.length = n) :
    hinge_loss X y theta reg_beta = hingeLossSpec k n X y theta reg_beta := by
  have hne : X ≠ [] := by
    intro h
    rw [h] at hX
    simp at hX
    omega
  have hhead : (X.headD []).length = n := by
    match X, hne with
    | r :: t, _ => exact hrect r (by simp)
  have hmlen : (List.zipWith (· * ·) y (matVec X theta)).length = k :=
    margin_len k X y theta hX hy
  simp only [hinge_loss, hingeLossSpec, Prod.mk.injEq]
  rw [hX, hhead, htheta]
  constructor
  · have hM : ((List.zipWith (· * ·) y (matVec X theta)).map (fun m => max 0 (1 - m))).sum
        = ∑ i in Finset.range k,
            max 0 (1 - y.getD i 0 * ∑ j in Finset.range n, (X.getD i []).getD j 0 * theta.getD j 0) := by
      rw [map_sum_eq (fun m => max 0 (1 - m)) _ k hmlen]
      refine Finset.sum_congr rfl (fun i hi => ?_)
      rw [margin_getD k n X y theta hX hrect hy htheta i (List.mem_range.mp hi)]
    have hT : dot theta theta = ∑ j in Finset.range n, theta.getD j 0 ^ 2 := by
      rw [dot_eq_sum theta theta n htheta htheta]
      exact Finset.sum_congr rfl (fun j _ => (pow_two _).symm)
    rw [hM, hT]
    ring
  · apply List.map_congr_left
    intro j hj
    have hjn : j < n := List.mem_range.mp hj
    rw [if_pos hjn]
    have hyxlen : (List.zipWith (· * ·) y (col X j)).length = k := by
      rw [List.length_zipWith, hy, col_len k X hX j]
      omega
    have hS : (List.zipWith (fun m v => if m < 1 then -v else 0)
          (List.zipWith (· * ·) y (matVec X theta)) (List.zipWith (· * ·) y (col X j))).sum
        = ∑ i in Finset.range k,
            if y.getD i 0 * (∑ j2 in Finset.range n, (X.getD i []).getD j2 0 * theta.getD j2 0) < 1
            then -(y.getD i 0 * (X.getD i []).getD j 0) else 0 := by
      rw [zipWith_sum_eq (fun m v => if m < 1 then -v else 0) _ _ k hmlen hyxlen]
      refine Finset.sum_congr rfl (fun i hi => ?_)
      have hik : i < k := List.mem_range.mp hi
      rw [margin_getD k n X y theta hX hrect hy htheta i hik,
        getD_zipWith_gen (· * ·) y (col X j) i (by omega) (by rw [col_len k X hX j]; omega) 0 0 0,
        col_getD k X hX j i hik]
    rw [hS]
    ring

theorem claim_C4_witness :
    ((1 : ℕ) ≤ 1 ∧ [[(2 : ℚ)]].length = 1 ∧ (∀ row ∈ [[(2 : ℚ)]], row.length = 1) ∧
      [(1 : ℚ)].length = 1 ∧ [(3 : ℚ)].length = 1) ∧
    hinge_loss [[(2 : ℚ)]] [1] [3] 5 = hingeLossSpec 1 1 [[(2 : ℚ)]] [1] [3] 5 :=
  ⟨⟨by decide, by decide, by decide, by decide, by decide⟩,
   claim_C4 1 1 [[(2 : ℚ)]] [1] [3] 5 (by decide) (by decide) (by decide) (by decide) (by decide)⟩

/-- C5 (counterexample): under the generator's actual in-place semantics,
the theta of the first produced pair, read after a 1-step run has finished,
is the final iterate `[1/10]` and not the historical zero iterate `[0]`
that the pure value sequence records: the pairs are not independent
snapshots. -/
theorem claim_C5_counterexample :
    ¬ (readRef (gradient_descent_inplace [[(1 : ℚ)]] [1] hinge_loss_default 1 (1 / 10)).1
         ((gradient_descent_inplace [[(1 : ℚ)]] [1] hinge_loss_default 1 (1 / 10)).2.getD 0
           ((), 0)).1
       = ((gradient_descent [[(1 : ℚ)]] [1] hinge_loss_default 1 (1 / 10)).getD 0 ([], 0)).1) := by
  decide

/-- C5 (amended): every produced pair carries a *reference* to the single
theta array that the optimizer mutates in place; observed after the run,
the theta of every pair `i ≤ nsteps` reads as the final iterate
`thetaIter nsteps`, not the historical `i`-th value (which is why a
reimplementation must yield an independent snapshot per step); the run
yields `nsteps + 1` pairs. -/
theorem claim_C5_amended (X : List (List ℚ)) (y : List ℚ) (f : LossFunc) (N : ℕ) (lr : ℚ)
    (i : ℕ) (hi : i ≤ N) :
    (gradient_descent_inplace X y f N lr).2.length = N + 1 ∧
    readRef (gradient_descent_inplace X y f N lr).1
        ((gradient_descent_inplace X y f N lr).2.getD i ((), 0)).1
      = thetaIter X y f lr N := by
  constructor
  · have hcons : (gradient_descent_inplace X y f N lr).2
        = ((), (f X y (List.replicate ((X.headD []).length) 0)).1)
          :: (gdLoopInPlace f X y lr (List.replicate ((X.headD []).length) 0)
                ((f X y (List.replicate ((X.headD []).length) 0)).2) N).2 := rfl
    rw [hcons, List.length_cons, gdLoopInPlace_len]
  · show (gradient_descent_inplace X y f N lr).1 = _
    exact gd_inplace_final X y f N lr

theorem claim_C5_amended_witness :
    ((0 : ℕ) ≤ 1) ∧
    ((gradient_descent_inplace [[(1 : ℚ)]] [1] hinge_loss_default 1 (1 / 10)).2.length = 1 + 1 ∧
     readRef (gradient_descent_inplace [[(1 : ℚ)]] [1] hinge_loss_default 1 (1 / 10)).1
         ((gradient_descent_inplace [[(1 : ℚ)]] [1] hinge_loss_default 1 (1 / 10)).2.getD 0
           ((), 0)).1
       = thetaIter [[(1 : ℚ)]] [1] hinge_loss_default (1 / 10) 1) :=
  ⟨by decide, claim_C5_amended [[(1 : ℚ)]] [1] hinge_loss_default 1 (1 / 10) 0 (by decide)⟩

/-- C6: on `X = [[1,1],[1,2],[1,3],[1,4]]`, `y = [1,1,-1,-1]`, hinge loss,
`nsteps = 50`, `learning_rate = 0.1`, the produced loss sequence is
monotonically non-increasing — in fact from the very first step, so in
particular after the first few — and the final (51st) loss is strictly
smaller than the initial loss. -/
theorem claim_C6 :
    (∀ i, i < 50 →
      ((gradient_descent [[1, 1], [1, 2], [1, 3], [1, 4]] [1, 1, -1, -1]
          hinge_loss_default 50 (1 / 10)).map Prod.snd).getD (i + 1) 0
        ≤ ((gradient_descent [[1, 1], [1, 2], [1, 3], [1, 4]] [1, 1, -1, -1]
          hinge_loss_default 50 (1 / 10)).map Prod.snd).getD i 0) ∧
    ((gradient_descent [[1, 1], [1, 2], [1, 3], [1, 4]] [1, 1, -1, -1]
        hinge_loss_default 50 (1 / 10)).map Prod.snd).getD 50 0
      < ((gradient_descent [[1, 1], [1, 2], [1, 3], [1, 4]] [1, 1, -1, -1]
        hinge_loss_default 50 (1 / 10)).map Prod.snd).getD 0 0 := by
  rw [losses6_eq]
  exact ⟨by decide, by decide⟩

theorem claim_C6_witness :
    (0 : ℕ) < 50 ∧
    ((gradient_descent [[1, 1], [1, 2], [1, 3], [1, 4]] [1, 1, -1, -1]
        hinge_loss_default 50 (1 / 10)).map Prod.snd).getD (0 + 1) 0
      ≤ ((gradient_descent [[1, 1], [1, 2], [1, 3], [1, 4]] [1, 1, -1, -1]
        hinge_loss_default 50 (1 / 10)).map Prod.snd).getD 0 0 :=
  ⟨by decide, claim_C6.1 0 (by decide)⟩

/-- C9: for every fixed `X`, `y` and every `theta` that is not the zero
vector, the loss returned by `square_loss` with `reg_beta = 1.0` is
strictly greater than the loss with `reg_beta = 0.0` on the same data. -/
theorem claim_C9 (X : List (List ℚ)) (y theta : List ℚ) (h : ∃ v ∈ theta, v ≠ 0) :
    (square_loss X y theta 1).1 > (square_loss X y theta 0).1 := by
  have hpos : 0 < dot theta theta := dot_self_pos theta h
  simp only [square_loss]
  rw [mul_zero, zero_div, add_zero, mul_one]
  exact lt_add_of_pos_right _ (by positivity)

theorem claim_C9_witness :
    (∃ v ∈ [(3 : ℚ)], v ≠ 0) ∧
    (square_loss [[(2 : ℚ)]] [1] [3] 1).1 > (square_loss [[(2 : ℚ)]] [1] [3] 0).1 :=
  ⟨by decide, claim_C9 [[(2 : ℚ)]] [1] [3] (by decide)⟩

/-- C10: for every `k×n` matrix `X` with `k ≥ 1` and every `y` of length
`k`, when `theta` is the zero vector and `reg_beta = 0`, both
`square_loss` and `hinge_loss` return loss exactly `1`: the margin is the
zero vector, so the square loss averages `(0-1)^2 = 1` and the hinge loss
averages `max(0, 1-0) = 1` over all `k` samples. -/
theorem claim_C10 (k n : ℕ) (X : List (List ℚ)) (y : List ℚ)
    (hX : X.length = k) (hy : y.length = k) (hk : 1 ≤ k) :
    (square_loss X y (List.replicate n 0) 0).1 = 1 ∧
    (hinge_loss X y (List.replicate n 0) 0).1 = 1 := by
  have hkQ : ((k : ℕ) : ℚ) ≠ 0 := Nat.cast_ne_zero.mpr (by omega)
  have hmargin : List.zipWith (· * ·) y (matVec X (List.replicate n 0))
      = List.replicate k 0 := by
    rw [matVec_zero X n, hX]
    exact zip_mul_replicate_zero y k hy
  have h01 : (0 : ℚ) - 1 = -1 := by norm_num
  constructor
  · simp only [square_loss]
    rw [hmargin, hX, List.map_replicate, h01]
    have hd : dot (List.replicate k (-1 : ℚ)) (List.replicate k (-1 : ℚ)) = (k : ℚ) := by
      show (List.zipWith (· * ·) (List.replicate k (-1 : ℚ)) (List.replicate k (-1 : ℚ))).sum
        = (k : ℚ)
      rw [List.zipWith_replicate, min_self, List.sum_replicate, nsmul_eq_mul]
      norm_num
    rw [hd, mul_zero, zero_div, add_zero, div_self hkQ]
  · simp only [hinge_loss]
    rw [hmargin, hX, List.map_replicate]
    have hmax : max (0 : ℚ) (1 - 0) = 1 := by norm_num
    rw [hmax, List.sum_replicate]
    simp only [nsmul_eq_mul, mul_one]
    rw [mul_zero, zero_div, add_zero, div_self hkQ]

theorem claim_C10_witness :
    ([[(2 : ℚ)]].length = 1 ∧ [(1 : ℚ)].length = 1 ∧ (1 : ℕ) ≤ 1) ∧
    ((square_loss [[(2 : ℚ)]] [1] (List.replicate 1 0) 0).1 = 1 ∧
     (hinge_loss [[(2 : ℚ)]] [1] (List.replicate 1 0) 0).1 = 1) :=
  ⟨⟨by decide, by decide, by decide⟩,
   claim_C10 1 1 [[(2 : ℚ)]] [1] (by decide) (by decide) (by decide)⟩

/-- C7: `sigmoid(0) = 0.5`; `sigmoid` is strictly increasing; and for
every (finite) real input `z`, `sigmoid(z)` lies strictly between 0
and 1. -/
theorem claim_C7 :
    sigmoid 0 = 1 / 2 ∧
    (∀ z1 z2 : ℝ, z1 < z2 → sigmoid z1 < sigmoid z2) ∧
    (∀ z : ℝ, 0 < sigmoid z ∧ sigmoid z < 1) := by
  refine ⟨?_, ?_, ?_⟩
  · show (1 : ℝ) / (1 + Real.exp (-0)) = 1 / 2
    rw [neg_zero, Real.exp_zero]
    norm_num
  · intro z1 z2 h
    have h1 : (0 : ℝ) < 1 + Real.exp (-z2) := by positivity
    have h2 : Real.exp (-z2) < Real.exp (-z1) := Real.exp_lt_exp.mpr (by linarith)
    have h3 : 1 + Real.exp (-z2) < 1 + Real.exp (-z1) := by linarith
    exact one_div_lt_one_div_of_lt h1 h3
  · intro z
    have he : (0 : ℝ) < Real.exp (-z) := Real.exp_pos _
    constructor
    · show (0 : ℝ) < 1 / (1 + Real.exp (-z))
      positivity
    · show (1 : ℝ) / (1 + Real.exp (-z)) < 1
      rw [div_lt_one (by positivity)]
      linarith

theorem claim_C7_witness :
    ((0 : ℝ) < 1 ∧ sigmoid 0 < sigmoid 1) ∧ (0 < sigmoid 5 ∧ sigmoid 5 < 1) :=
  ⟨⟨by norm_num, claim_C7.2.1 0 1 (by norm_num)⟩, claim_C7.2.2 5⟩

theorem normalized_mean_std (k : ℕ) (v : Fin k → ℝ) (hk : 1 ≤ k)
    (hvar : (∑ i, (v i - (∑ i2, v i2) / k) ^ 2) / k ≠ 0) :
    ((∑ i, (v i - (∑ i2, v i2) / k)
        / Real.sqrt ((∑ i2, (v i2 - (∑ i3, v i3) / k) ^ 2) / k)) / k = 0)
    ∧ Real.sqrt ((∑ i, ((v i - (∑ i2, v i2) / k)
          / Real.sqrt ((∑ i2, (v i2 - (∑ i3, v i3) / k) ^ 2) / k)
        - (∑ i2, (v i2 - (∑ i3, v i3) / k)
          / Real.sqrt ((∑ i3, (v i3 - (∑ i4, v i4) / k) ^ 2) / k)) / k) ^ 2) / k) = 1 := by
  have hkR : (0 : ℝ) < (k : ℝ) := by
    have hh : 0 < k := by omega
    exact_mod_cast hh
  have hkne : (k : ℝ) ≠ 0 := ne_of_gt hkR
  have hsum0 : (∑ i, (v i - (∑ i2, v i2) / k)) = 0 := by
    rw [Finset.sum_sub_distrib, Finset.sum_const, Finset.card_univ, Fintype.card_fin,
      nsmul_eq_mul, mul_div_cancel₀ _ hkne, sub_self]
  have hmean : (∑ i, (v i - (∑ i2, v i2) / k)
      / Real.sqrt ((∑ i2, (v i2 - (∑ i3, v i3) / k) ^ 2) / k)) = 0 := by
    rw [← Finset.sum_div, hsum0, zero_div]
  have hVnn : 0 ≤ (∑ i, (v i - (∑ i2, v i2) / k) ^ 2) / k :=
    div_nonneg (Finset.sum_nonneg fun i _ => sq_nonneg _) (le_of_lt hkR)
  have hSne : (∑ i, (v i - (∑ i2, v i2) / k) ^ 2) ≠ 0 := by
    intro h0
    exact hvar (by rw [h0, zero_div])
  have hσsq : Real.sqrt ((∑ i, (v i - (∑ i2, v i2) / k) ^ 2) / k) ^ 2
      = (∑ i, (v i - (∑ i2, v i2) / k) ^ 2) / k := Real.sq_sqrt hVnn
  constructor
  · rw [hmean, zero_div]
  · have hsq : (∑ i, ((v i - (∑ i2, v i2) / k)
          / Real.sqrt ((∑ i2, (v i2 - (∑ i3, v i3) / k) ^ 2) / k)
        - (∑ i2, (v i2 - (∑ i3, v i3) / k)
          / Real.sqrt ((∑ i3, (v i3 - (∑ i4, v i4) / k) ^ 2) / k)) / k) ^ 2)
        = (k : ℝ) := by
      rw [hmean, zero_div]
      simp only [sub_zero, div_pow]
      rw [← Finset.sum_div, hσsq, div_div_eq_mul_div, mul_comm, mul_div_assoc,
        div_self hSne, mul_one]
    rw [hsq, div_self hkne, Real.sqrt_one]

/-- C8: for every `X` with `k ≥ 1` rows, `feature_normalize` returns
`(X_norm, mu, sigma)` with `mu` the per-column mean, `sigma` the
per-column population standard deviation, and
`X_norm = (X - mu) / sigma` elementwise; consequently, for `k ≥ 2` and
columns of nonzero variance, each column of `X_norm` has mean 0 and
population standard deviation 1. -/
theorem claim_C8 (k n : ℕ) (X : Fin k → Fin n → ℝ) (hk : 1 ≤ k) :
    (∀ j, (feature_normalize k n X).2.1 j = (∑ i, X i j) / k) ∧
    (∀ j, (feature_normalize k n X).2.2 j
        = Real.sqrt ((∑ i, (X i j - (∑ i2, X i2 j) / k) ^ 2) / k)) ∧
    (∀ i j, (feature_normalize k n X).1 i j
        = (X i j - (feature_normalize k n X).2.1 j) / (feature_normalize k n X).2.2 j) ∧
    (2 ≤ k → (∀ j, (∑ i, (X i j - (∑ i2, X i2 j) / k) ^ 2) / k ≠ 0) →
      (∀ j, (∑ i, (feature_normalize k n X).1 i j) / k = 0) ∧
      (∀ j, Real.sqrt ((∑ i, ((feature_normalize k n X).1 i j
            - (∑ i2, (feature_normalize k n X).1 i2 j) / k) ^ 2) / k) = 1)) := by
  refine ⟨fun j => rfl, fun j => rfl, fun i j => rfl, fun hk2 hvar => ⟨fun j => ?_, fun j => ?_⟩⟩
  · exact (normalized_mean_std k (fun i => X i j) hk (hvar j)).1
  · exact (normalized_mean_std k (fun i => X i j) hk (hvar j)).2

theorem claim_C8_witness :
    ((1 : ℕ) ≤ 2 ∧ (2 : ℕ) ≤ 2 ∧
      (∀ j : Fin 1, (∑ i : Fin 2, (![![(0 : ℝ)], ![2]] i j
          - (∑ i2 : Fin 2, ![![(0 : ℝ)], ![2]] i2 j) / ((2 : ℕ) : ℝ)) ^ 2) / ((2 : ℕ) : ℝ) ≠ 0)) ∧
    (∀ j : Fin 1, (∑ i : Fin 2, (feature_normalize 2 1 ![![(0 : ℝ)], ![2]]).1 i j)
        / ((2 : ℕ) : ℝ) = 0) := by
  have hvar : ∀ j : Fin 1, (∑ i : Fin 2, (![![(0 : ℝ)], ![2]] i j
      - (∑ i2 : Fin 2, ![![(0 : ℝ)], ![2]] i2 j) / ((2 : ℕ) : ℝ)) ^ 2) / ((2 : ℕ) : ℝ) ≠ 0 := by
    intro j
    fin_cases j
    simp [Fin.sum_univ_two]
    norm_num
  exact ⟨⟨by norm_num, by norm_num, hvar⟩,
    ((claim_C8 2 1 ![![(0 : ℝ)], ![2]] (by norm_num)).2.2.2 (by norm_num) hvar).1⟩

end RegressionLib
